import Mathlib

/-!
Shallow embedding of the core of `multi-poetry-runner`: the semantic-version
bump logic and compatibility checks (`core/version_manager.py`,
`core/dependencies.py`), the dependency graph (`utils/config.py`), the
version-history ledger, and the release orchestration (`core/release.py`).
Python strings are modelled as lists of characters, Python dictionaries as
association lists, and the filesystem / git side effects as explicit state.
-/

namespace MPR

/-- Python strings, modelled as lists of characters. -/
abbrev Str := List Char

/-- The character of a decimal digit (used to render numbers as Python's
f-strings do). -/
def digitChar (d : Nat) : Char :=
  match d with
  | 0 => '0' | 1 => '1' | 2 => '2' | 3 => '3' | 4 => '4'
  | 5 => '5' | 6 => '6' | 7 => '7' | 8 => '8' | 9 => '9'
  | _ => '?'

/-- The numeric value of a digit character. -/
def charDigit (c : Char) : Nat := c.toNat - 48

/-- Little-endian decimal digits of `n`, computed with a structural fuel so
that it evaluates inside the kernel. -/
def natDigitsAux : Nat → Nat → List Nat
  | 0, _ => []
  | fuel + 1, n => if n = 0 then [] else (n % 10) :: natDigitsAux fuel (n / 10)

/-- Little-endian decimal digits of `n` (equal to `Nat.digits 10 n`). -/
def natDigits (n : Nat) : List Nat := natDigitsAux n n

/-- Decimal rendering of a natural number (Python `f"{n}"`). -/
def natToStr (n : Nat) : Str :=
  if n = 0 then ['0'] else ((natDigits n).map digitChar).reverse

/-- Parse a nonempty all-digit string as a decimal number; this is what a
`(\d+)` group of the version regular expression captures. -/
def parseNat (s : Str) : Option Nat :=
  if s ≠ [] ∧ s.all Char.isDigit then
    some (Nat.ofDigits 10 ((s.map charDigit).reverse))
  else none

theorem natDigitsAux_eq (fuel : Nat) :
    ∀ n, n ≤ fuel → natDigitsAux fuel n = Nat.digits 10 n := by
  induction fuel with
  | zero =>
    intro n hn
    interval_cases n
    simp [natDigitsAux]
  | succ fuel ih =>
    intro n hn
    rw [natDigitsAux]
    by_cases hz : n = 0
    · subst hz
      simp
    · rw [if_neg hz]
      have hdiv : n / 10 ≤ fuel := by
        have : n / 10 < n := Nat.div_lt_self (Nat.pos_of_ne_zero hz) (by norm_num)
        omega
      rw [ih (n / 10) hdiv]
      exact (Nat.digits_def' (by norm_num) (Nat.pos_of_ne_zero hz)).symm

theorem natDigits_eq (n : Nat) : natDigits n = Nat.digits 10 n :=
  natDigitsAux_eq n n le_rfl

theorem charDigit_digitChar {d : Nat} (h : d < 10) : charDigit (digitChar d) = d := by
  interval_cases d <;> rfl

theorem isDigit_digitChar {d : Nat} (h : d < 10) : (digitChar d).isDigit = true := by
  interval_cases d <;> rfl

theorem natToStr_ne_nil (n : Nat) : natToStr n ≠ [] := by
  unfold natToStr
  split
  · simp
  · next h =>
    rw [natDigits_eq]
    simp only [ne_eq, List.reverse_eq_nil_iff, List.map_eq_nil_iff]
    exact Nat.digits_ne_nil_iff_ne_zero.mpr h

theorem natToStr_all_digits (n : Nat) : (natToStr n).all Char.isDigit = true := by
  unfold natToStr
  split
  · rfl
  · rw [natDigits_eq]
    simp only [List.all_eq_true, List.mem_reverse, List.mem_map]
    rintro c ⟨d, hd, rfl⟩
    exact isDigit_digitChar (Nat.digits_lt_base (by norm_num) hd)

theorem parseNat_natToStr (n : Nat) : parseNat (natToStr n) = some n := by
  unfold parseNat
  rw [if_pos ⟨natToStr_ne_nil n, natToStr_all_digits n⟩]
  unfold natToStr
  split
  · next h => subst h; rfl
  · next h =>
    rw [natDigits_eq]
    congr 1
    have hmap : ((Nat.digits 10 n).map digitChar).map charDigit = Nat.digits 10 n := by
      rw [List.map_map]
      calc (Nat.digits 10 n).map (charDigit ∘ digitChar)
          = (Nat.digits 10 n).map id := by
            refine List.map_congr_left ?_
            intro d hd
            exact charDigit_digitChar (Nat.digits_lt_base (by norm_num) hd)
        _ = Nat.digits 10 n := List.map_id _
    rw [List.map_reverse, List.reverse_reverse, hmap, Nat.ofDigits_digits]

/-- A parsed semantic version: the capture groups of the regular expression
`(\d+)\.(\d+)\.(\d+)(?:-alpha\.(\d+))?(?:\+.*)?` used by
`VersionManager._calculate_new_version` (build metadata is dropped; the code
never reads it). -/
structure SemVer where
  major : Nat
  minor : Nat
  patch : Nat
  alpha : Option Nat
deriving DecidableEq, Repr

/-- Match a version string against the regular expression above; `none`
models a match failure, on which Python raises `ValueError`. -/
def parseVersion (s : Str) : Option SemVer :=
  match s.span Char.isDigit with
  | (d1, '.' :: r2) =>
    match parseNat d1 with
    | none => none
    | some n1 =>
      match r2.span Char.isDigit with
      | (d2, '.' :: r4) =>
        match parseNat d2 with
        | none => none
        | some n2 =>
          match r4.span Char.isDigit with
          | (d3, r5) =>
            match parseNat d3 with
            | none => none
            | some n3 =>
              match r5 with
              | [] => some ⟨n1, n2, n3, none⟩
              | '+' :: _ => some ⟨n1, n2, n3, none⟩
              | '-' :: 'a' :: 'l' :: 'p' :: 'h' :: 'a' :: '.' :: r6 =>
                match r6.span Char.isDigit with
                | (d4, r7) =>
                  match parseNat d4 with
                  | none => none
                  | some n4 =>
                    match r7 with
                    | [] => some ⟨n1, n2, n3, some n4⟩
                    | '+' :: _ => some ⟨n1, n2, n3, some n4⟩
                    | _ => none
              | _ => none
      | _ => none
  | _ => none

/-- Render a version back to its string form `MAJOR.MINOR.PATCH[-alpha.N]`,
as the f-strings in `_calculate_new_version` do. -/
def renderVersion (v : SemVer) : Str :=
  natToStr v.major ++ '.' :: natToStr v.minor ++ '.' :: natToStr v.patch ++
    match v.alpha with
    | none => []
    | some a => '-' :: 'a' :: 'l' :: 'p' :: 'h' :: 'a' :: '.' :: natToStr a

/-- The arithmetic of `VersionManager._calculate_new_version` on parsed
versions.  `none` models the unbound-variable error the Python code would hit
on an unknown bump type in the non-alpha branches (the alpha branch has an
explicit default case). -/
def calculateNewVersionParsed (v : SemVer) (bumpType : Str) (alpha : Bool) :
    Option SemVer :=
  if alpha then
    match v.alpha with
    | some currentAlpha => some ⟨v.major, v.minor, v.patch, some (currentAlpha + 1)⟩
    | none =>
      if bumpType = "patch".data then some ⟨v.major, v.minor, v.patch + 1, some 1⟩
      else if bumpType = "minor".data then some ⟨v.major, v.minor + 1, 0, some 1⟩
      else if bumpType = "major".data then some ⟨v.major + 1, 0, 0, some 1⟩
      else some ⟨v.major, v.minor, v.patch, some 1⟩
  else
    match v.alpha with
    | some _ =>
      if bumpType = "patch".data then some ⟨v.major, v.minor, v.patch, none⟩
      else if bumpType = "minor".data then some ⟨v.major, v.minor, 0, none⟩
      else if bumpType = "major".data then some ⟨v.major, 0, 0, none⟩
      else none
    | none =>
      if bumpType = "patch".data then some ⟨v.major, v.minor, v.patch + 1, none⟩
      else if bumpType = "minor".data then some ⟨v.major, v.minor + 1, 0, none⟩
      else if bumpType = "major".data then some ⟨v.major + 1, 0, 0, none⟩
      else none

/-- Model of `VersionManager._calculate_new_version`: parse the current version, apply
the bump rules, render the result.  `none` models a raised exception. -/
def calculateNewVersion (currentVersion bumpType : Str) (alpha : Bool) :
    Option Str :=
  (parseVersion currentVersion).bind fun v =>
    (calculateNewVersionParsed v bumpType alpha).map renderVersion

theorem span_digits_append (s rest : Str) (hs : s.all Char.isDigit = true)
    (hrest : ∀ c, rest.head? = some c → c.isDigit = false) :
    (s ++ rest).span Char.isDigit = (s, rest) := by
  rw [List.span_eq_take_drop]
  induction s with
  | nil =>
    cases rest with
    | nil => rfl
    | cons c cs =>
      have hc : c.isDigit = false := hrest c rfl
      simp [List.takeWhile, List.dropWhile, hc]
  | cons c cs ih =>
    simp only [List.all_cons, Bool.and_eq_true] at hs
    have h2 := ih hs.2
    simp only [List.cons_append, List.takeWhile_cons, List.dropWhile_cons, hs.1,
      Prod.mk.injEq] at h2 ⊢
    simp [hs.1] at h2 ⊢
    exact h2

theorem parseVersion_renderVersion (v : SemVer) :
    parseVersion (renderVersion v) = some v := by
  obtain ⟨ma, mi, pa, al⟩ := v
  have hdot : ∀ (r : Str) c, ('.' :: r).head? = some c → c.isDigit = false := by
    intro r c hc; cases hc; rfl
  cases al with
  | none =>
    have h3 : (natToStr pa ++ ([] : Str)).span Char.isDigit = (natToStr pa, []) :=
      span_digits_append _ _ (natToStr_all_digits pa) (by intro c hc; cases hc)
    rw [List.append_nil] at h3
    have h2 : (natToStr mi ++ '.' :: natToStr pa).span Char.isDigit
        = (natToStr mi, '.' :: natToStr pa) :=
      span_digits_append _ _ (natToStr_all_digits mi) (hdot _)
    have h1 : (natToStr ma ++ '.' :: (natToStr mi ++ '.' :: natToStr pa)).span Char.isDigit
        = (natToStr ma, '.' :: (natToStr mi ++ '.' :: natToStr pa)) :=
      span_digits_append _ _ (natToStr_all_digits ma) (hdot _)
    simp only [renderVersion, List.append_assoc, List.cons_append, List.append_nil]
    simp only [parseVersion, h1, h2, h3, parseNat_natToStr]
  | some a =>
    have htl : ∀ c, ('-' :: 'a' :: 'l' :: 'p' :: 'h' :: 'a' :: '.' :: natToStr a).head? = some c →
        c.isDigit = false := by
      intro c hc; cases hc; rfl
    have h4 : (natToStr a ++ ([] : Str)).span Char.isDigit = (natToStr a, []) :=
      span_digits_append _ _ (natToStr_all_digits a) (by intro c hc; cases hc)
    rw [List.append_nil] at h4
    have h3 : (natToStr pa ++ '-' :: 'a' :: 'l' :: 'p' :: 'h' :: 'a' :: '.' :: natToStr a).span
          Char.isDigit
        = (natToStr pa, '-' :: 'a' :: 'l' :: 'p' :: 'h' :: 'a' :: '.' :: natToStr a) :=
      span_digits_append _ _ (natToStr_all_digits pa) htl
    have h2 : (natToStr mi ++ '.' ::
          (natToStr pa ++ '-' :: 'a' :: 'l' :: 'p' :: 'h' :: 'a' :: '.' :: natToStr a)).span
          Char.isDigit
        = (natToStr mi,
            '.' :: (natToStr pa ++ '-' :: 'a' :: 'l' :: 'p' :: 'h' :: 'a' :: '.' :: natToStr a)) :=
      span_digits_append _ _ (natToStr_all_digits mi) (hdot _)
    have h1 : (natToStr ma ++ '.' :: (natToStr mi ++ '.' ::
          (natToStr pa ++ '-' :: 'a' :: 'l' :: 'p' :: 'h' :: 'a' :: '.' :: natToStr a))).span
          Char.isDigit
        = (natToStr ma, '.' :: (natToStr mi ++ '.' ::
            (natToStr pa ++ '-' :: 'a' :: 'l' :: 'p' :: 'h' :: 'a' :: '.' :: natToStr a))) :=
      span_digits_append _ _ (natToStr_all_digits ma) (hdot _)
    simp only [renderVersion, List.append_assoc, List.cons_append, List.append_nil]
    simp only [parseVersion, h1, h2, h3, h4, parseNat_natToStr]

theorem calculateNewVersion_renderVersion (v : SemVer) (kind : Str) (b : Bool) :
    calculateNewVersion (renderVersion v) kind b
      = (calculateNewVersionParsed v kind b).map renderVersion := by
  rw [calculateNewVersion, parseVersion_renderVersion]
  rfl

/-- C4: the bump function satisfies the four-rule table of the specification:
(1) with `wantAlpha` on an alpha version it increments the alpha counter and
keeps major.minor.patch for every kind; (2) with `wantAlpha` on a non-alpha
version it applies the kind's non-alpha rule and appends `-alpha.1`;
(3) without `wantAlpha` it promotes an alpha version (patch strips the alpha
suffix, minor resets patch, major resets minor and patch); (4) without
`wantAlpha` on a non-alpha version it increments according to the kind. -/
theorem claim_C4_bump_rule_table :
    (∀ (m mi p n : Nat) (kind : Str),
      calculateNewVersion (renderVersion ⟨m, mi, p, some n⟩) kind true
        = some (renderVersion ⟨m, mi, p, some (n + 1)⟩))
    ∧ (∀ m mi p : Nat,
      calculateNewVersion (renderVersion ⟨m, mi, p, none⟩) "patch".data true
          = some (renderVersion ⟨m, mi, p + 1, some 1⟩)
      ∧ calculateNewVersion (renderVersion ⟨m, mi, p, none⟩) "minor".data true
          = some (renderVersion ⟨m, mi + 1, 0, some 1⟩)
      ∧ calculateNewVersion (renderVersion ⟨m, mi, p, none⟩) "major".data true
          = some (renderVersion ⟨m + 1, 0, 0, some 1⟩))
    ∧ (∀ m mi p n : Nat,
      calculateNewVersion (renderVersion ⟨m, mi, p, some n⟩) "patch".data false
          = some (renderVersion ⟨m, mi, p, none⟩)
      ∧ calculateNewVersion (renderVersion ⟨m, mi, p, some n⟩) "minor".data false
          = some (renderVersion ⟨m, mi, 0, none⟩)
      ∧ calculateNewVersion (renderVersion ⟨m, mi, p, some n⟩) "major".data false
          = some (renderVersion ⟨m, 0, 0, none⟩))
    ∧ (∀ m mi p : Nat,
      calculateNewVersion (renderVersion ⟨m, mi, p, none⟩) "patch".data false
          = some (renderVersion ⟨m, mi, p + 1, none⟩)
      ∧ calculateNewVersion (renderVersion ⟨m, mi, p, none⟩) "minor".data false
          = some (renderVersion ⟨m, mi + 1, 0, none⟩)
      ∧ calculateNewVersion (renderVersion ⟨m, mi, p, none⟩) "major".data false
          = some (renderVersion ⟨m + 1, 0, 0, none⟩)) := by
  refine ⟨fun m mi p n kind => ?_, fun m mi p => ⟨?_, ?_, ?_⟩,
    fun m mi p n => ⟨?_, ?_, ?_⟩, fun m mi p => ⟨?_, ?_, ?_⟩⟩ <;>
    rw [calculateNewVersion_renderVersion] <;> rfl

/-- Python `s.split(".")`: the list of (possibly empty) chunks of `s`
between the dots; splitting the empty string yields `[""]`. -/
def splitDot (s : Str) : List Str :=
  match s with
  | [] => [[]]
  | c :: rest =>
    let r := splitDot rest
    if c = '.' then [] :: r
    else
      match r with
      | h :: t => (c :: h) :: t
      | [] => [[c]]

/-- Model of `VersionManager._is_version_compatible`: caret compares the first
dot-separated component, tilde compares the first two, everything else is
reported compatible. -/
def isVersionCompatibleVM (requirement version : Str) : Bool :=
  match requirement with
  | '^' :: reqVersion =>
    ((splitDot reqVersion).headD []) == ((splitDot version).headD [])
  | '~' :: reqVersion =>
    ((splitDot reqVersion).take 2) == ((splitDot version).take 2)
  | _ =>
    if requirement == version then true else true

/-- Model of `DependencyManager._is_version_compatible` (`core/dependencies.py`): the
same checks, but guarded by length tests that fall through to the
"default to compatible" return. -/
def isVersionCompatibleDM (requirement version : Str) : Bool :=
  match requirement with
  | '^' :: reqVersion =>
    let reqParts := splitDot reqVersion
    let verParts := splitDot version
    if 0 < reqParts.length ∧ 0 < verParts.length then
      (reqParts.headD []) == (verParts.headD [])
    else true
  | '~' :: reqVersion =>
    let reqParts := splitDot reqVersion
    let verParts := splitDot version
    if 2 ≤ reqParts.length ∧ 2 ≤ verParts.length then
      ((reqParts.headD []) == (verParts.headD []))
        && ((reqParts.getD 1 []) == (verParts.getD 1 []))
    else true
  | _ =>
    if requirement == version then true else true

theorem splitDot_ne_nil (s : Str) : splitDot s ≠ [] := by
  induction s with
  | nil => simp [splitDot]
  | cons c rest ih =>
    rw [splitDot]
    split
    · simp
    · match h : splitDot rest with
      | [] => simp
      | h1 :: t => simp

theorem splitDot_append_dot (s rest : Str) (hs : '.' ∉ s) :
    splitDot (s ++ '.' :: rest) = s :: splitDot rest := by
  induction s with
  | nil => simp [splitDot]
  | cons c cs ih =>
    simp only [List.mem_cons, not_or] at hs
    have hc : ¬(c = '.') := fun h => hs.1 h.symm
    rw [List.cons_append, splitDot, if_neg hc, ih hs.2]

theorem splitDot_no_dot (s : Str) (hs : '.' ∉ s) : splitDot s = [s] := by
  induction s with
  | nil => rfl
  | cons c cs ih =>
    simp only [List.mem_cons, not_or] at hs
    have hc : ¬(c = '.') := fun h => hs.1 h.symm
    rw [splitDot, if_neg hc, ih hs.2]

/-- C5: the compatibility check: a caret requirement is compatible exactly
when the first (major) components agree, a tilde requirement exactly when the
first two (major.minor) components agree, and any requirement that is neither
caret nor tilde is always reported compatible - including an exact literal
that differs from the version.  Proved for both implementations
(`version_manager.py` and `dependencies.py`). -/
theorem claim_C5_compatibility_table (x y z a b c : Str)
    (hx : '.' ∉ x) (hy : '.' ∉ y) (ha : '.' ∉ a) (hb : '.' ∉ b) :
    (isVersionCompatibleVM ('^' :: (x ++ '.' :: (y ++ '.' :: z)))
        (a ++ '.' :: (b ++ '.' :: c)) = (x == a)
      ∧ isVersionCompatibleDM ('^' :: (x ++ '.' :: (y ++ '.' :: z)))
        (a ++ '.' :: (b ++ '.' :: c)) = (x == a))
    ∧ (isVersionCompatibleVM ('~' :: (x ++ '.' :: (y ++ '.' :: z)))
        (a ++ '.' :: (b ++ '.' :: c)) = ((x == a) && (y == b))
      ∧ isVersionCompatibleDM ('~' :: (x ++ '.' :: (y ++ '.' :: z)))
        (a ++ '.' :: (b ++ '.' :: c)) = ((x == a) && (y == b)))
    ∧ (∀ req ver : Str, req.head? ≠ some '^' → req.head? ≠ some '~' →
      isVersionCompatibleVM req ver = true ∧ isVersionCompatibleDM req ver = true) := by
  have hreq : splitDot (x ++ '.' :: (y ++ '.' :: z)) = x :: y :: splitDot z := by
    rw [splitDot_append_dot _ _ hx, splitDot_append_dot _ _ hy]
  have hver : splitDot (a ++ '.' :: (b ++ '.' :: c)) = a :: b :: splitDot c := by
    rw [splitDot_append_dot _ _ ha, splitDot_append_dot _ _ hb]
  refine ⟨⟨?_, ?_⟩, ⟨?_, ?_⟩, ?_⟩
  · rw [isVersionCompatibleVM, hreq, hver]
    rfl
  · rw [isVersionCompatibleDM]
    simp only [hreq, hver, List.length_cons]
    rw [if_pos ⟨Nat.succ_pos _, Nat.succ_pos _⟩]
    rfl
  · rw [isVersionCompatibleVM, hreq, hver]
    show (List.take 2 (x :: y :: splitDot z) == List.take 2 (a :: b :: splitDot c)) = _
    simp [List.take, BEq.beq, List.beq]
  · rw [isVersionCompatibleDM]
    simp only [hreq, hver, List.length_cons]
    rw [if_pos ⟨by omega, by omega⟩]
    rfl
  · intro req ver h1 h2
    constructor
    · rw [isVersionCompatibleVM.eq_def]
      split
      · exact absurd rfl h1
      · exact absurd rfl h2
      · split <;> rfl
    · rw [isVersionCompatibleDM.eq_def]
      split
      · exact absurd rfl h1
      · exact absurd rfl h2
      · split <;> rfl

/-- Witness for C5 at the specification's own example
`Compatible("^1.0.0","1.5.0") = true`. -/
theorem claim_C5_compatibility_table_witness :
    isVersionCompatibleVM ('^' :: (['1'] ++ '.' :: (['0'] ++ '.' :: ['0'])))
        (['1'] ++ '.' :: (['5'] ++ '.' :: ['0'])) = (['1'] == (['1'] : Str))
      ∧ isVersionCompatibleDM ('^' :: (['1'] ++ '.' :: (['0'] ++ '.' :: ['0'])))
        (['1'] ++ '.' :: (['5'] ++ '.' :: ['0'])) = (['1'] == (['1'] : Str)) :=
  (claim_C5_compatibility_table ['1'] ['0'] ['0'] ['1'] ['5'] ['0']
    (by decide) (by decide) (by decide) (by decide)).1

/-- Model of `utils/config.py` `RepositoryConfig`, restricted to the fields the core
reads: the repository name, the published package name, the declared
dependency names, and whether the checkout exists on disk. -/
structure RepoCfg where
  name : Str
  packageName : Str
  dependencies : List Str
  pathExists : Bool
deriving DecidableEq, Repr

/-- The adjacency lookup `graph.get(node, [])` of
`ConfigManager.get_dependency_order`, the configuration acting as the
insertion-ordered dict (names are unique per the data model). -/
def depsOf (cfg : List RepoCfg) (n : Str) : List Str :=
  match cfg.find? (fun r => r.name == n) with
  | some r => r.dependencies
  | none => []

/-- One step of the declared dependency relation: `a` depends on `b`. -/
def DependsOn (cfg : List RepoCfg) (a b : Str) : Prop := b ∈ depsOf cfg a

/-- The traversal state of `get_dependency_order`: the `visited` and
`temp_visited` sets (modelled as duplicate-free lists) and the accumulating
`result` list. -/
structure DfsSt where
  visited : List Str
  temp : List Str
  result : List Str
deriving DecidableEq, Repr

/-- Traversal outcomes: the `ValueError` naming a node of a cycle, and
exhaustion of the recursion budget.  The budget is a modelling artefact (Lean
needs a decreasing measure); `dfs_no_fuel` shows the budget used by
`getDependencyOrder` is never exhausted, matching the always-terminating
Python recursion. -/
inductive DfsErr where
  | cycle (node : Str)
  | fuel
deriving DecidableEq, Repr

/-- The `for dep in ...: visit(dep)` loop: run `f` on each node in order,
threading the state and propagating the first raised error. -/
def visitFold (f : Str → DfsSt → Except DfsErr DfsSt) (nodes : List Str)
    (st : DfsSt) : Except DfsErr DfsSt :=
  match nodes with
  | [] => .ok st
  | d :: ds =>
    match f d st with
    | .error e => .error e
    | .ok st2 => visitFold f ds st2

/-- The inner `visit` function of `ConfigManager.get_dependency_order`,
structurally recursive on the depth budget. -/
def visit (cfg : List RepoCfg) : Nat → Str → DfsSt → Except DfsErr DfsSt
  | 0, _, _ => .error .fuel
  | fuel + 1, node, st =>
    if node ∈ st.temp then .error (.cycle node)
    else if node ∈ st.visited then .ok st
    else
      match visitFold (visit cfg fuel) (depsOf cfg node)
          { st with temp := node :: st.temp } with
      | .error e => .error e
      | .ok st2 =>
        .ok { visited := node :: st2.visited, temp := st2.temp.erase node,
              result := st2.result ++ [node] }

/-- Visiting a list of nodes at a fixed depth budget. -/
def visitList (cfg : List RepoCfg) (fuel : Nat) : List Str → DfsSt → Except DfsErr DfsSt :=
  visitFold (visit cfg fuel)

/-- Every name occurring in the graph: the keys and all dependency names. -/
def allNames (cfg : List RepoCfg) : List Str :=
  cfg.map (fun r => r.name) ++ (cfg.map (fun r => r.dependencies)).flatten

/-- The recursion budget handed to the traversal; `dfs_no_fuel` shows it is
never exhausted. -/
def dfsFuel (cfg : List RepoCfg) : Nat := (allNames cfg).length + 1

/-- Model of `ConfigManager.get_dependency_order`: run the three-state depth-first
search over the configured repositories in insertion order. -/
def getDependencyOrder (cfg : List RepoCfg) : Except DfsErr (List Str) :=
  match visitList cfg (dfsFuel cfg) (cfg.map (fun r => r.name)) ⟨[], [], []⟩ with
  | .error e => .error e
  | .ok st => .ok st.result

theorem depsOf_subset_allNames (cfg : List RepoCfg) (n : Str) :
    ∀ d ∈ depsOf cfg n, d ∈ allNames cfg := by
  intro d hd
  unfold depsOf at hd
  split at hd
  · next r hr =>
    have hrmem : r ∈ cfg := List.mem_of_find?_eq_some hr
    unfold allNames
    refine List.mem_append.mpr (Or.inr ?_)
    exact List.mem_flatten.mpr ⟨r.dependencies, List.mem_map.mpr ⟨r, hrmem, rfl⟩, hd⟩
  · cases hd

theorem mem_keys_of_depsOf_ne_nil (cfg : List RepoCfg) (n : Str)
    (h : depsOf cfg n ≠ []) : n ∈ cfg.map (fun r => r.name) := by
  unfold depsOf at h
  rcases hf : cfg.find? (fun r => r.name == n) with _ | r
  · rw [hf] at h; exact absurd rfl h
  · have hrmem : r ∈ cfg := List.mem_of_find?_eq_some hf
    have hpred := List.find?_some hf
    have : r.name = n := by simpa using hpred
    exact this ▸ List.mem_map.mpr ⟨r, hrmem, rfl⟩

theorem keys_subset_allNames (cfg : List RepoCfg) :
    ∀ k ∈ cfg.map (fun r => r.name), k ∈ allNames cfg := by
  intro k hk
  exact List.mem_append.mpr (Or.inl hk)

theorem nodup_subset_length_le {l l2 : List Str} (hn : l.Nodup) (hs : l ⊆ l2) :
    l.length ≤ l2.length := by
  classical
  calc l.length = l.toFinset.card := (List.toFinset_card_of_nodup hn).symm
    _ ≤ l2.toFinset.card := Finset.card_le_card (fun x hx => by
        rw [List.mem_toFinset] at hx ⊢; exact hs hx)
    _ ≤ l2.length := l2.toFinset_card_le

/-- Strict precedence in a list: `a` occurs before `b` in `l` when a split of `l` has `a` in the
left part and `b` in the right part. -/
def Before (l : List Str) (a b : Str) : Prop :=
  ∃ l1 l2, l = l1 ++ l2 ∧ a ∈ l1 ∧ b ∈ l2

theorem Before.mono {l l2 : List Str} {a b : Str} (h : Before l a b) :
    Before (l ++ l2) a b := by
  obtain ⟨p, q, rfl, ha, hb⟩ := h
  exact ⟨p, q ++ l2, by rw [List.append_assoc], ha, List.mem_append.mpr (Or.inl hb)⟩

theorem Before.mem_left {l : List Str} {a b : Str} (h : Before l a b) : a ∈ l := by
  obtain ⟨p, q, rfl, ha, _⟩ := h
  exact List.mem_append.mpr (Or.inl ha)

theorem Before.mem_right {l : List Str} {a b : Str} (h : Before l a b) : b ∈ l := by
  obtain ⟨p, q, rfl, _, hb⟩ := h
  exact List.mem_append.mpr (Or.inr hb)

/-- The invariant of the traversal state: the emitted order is exactly the
set of visited nodes, has no duplicates, and already lists every dependency
of an emitted node before that node. -/
def DfsInv (cfg : List RepoCfg) (st : DfsSt) : Prop :=
  (∀ n, n ∈ st.result ↔ n ∈ st.visited)
  ∧ st.result.Nodup
  ∧ (∀ n ∈ st.result, ∀ d ∈ depsOf cfg n, Before st.result d n)

theorem visitFold_temp (f : Str → DfsSt → Except DfsErr DfsSt)
    (hf : ∀ n st st2, f n st = .ok st2 → st2.temp = st.temp) :
    ∀ nodes st st2, visitFold f nodes st = .ok st2 → st2.temp = st.temp := by
  intro nodes
  induction nodes with
  | nil =>
    intro st st2 h
    rw [visitFold] at h
    cases h
    rfl
  | cons d ds ih =>
    intro st st2 h
    rw [visitFold] at h
    cases hv : f d st with
    | error e => rw [hv] at h; cases h
    | ok stm =>
      rw [hv] at h
      exact (ih stm st2 h).trans (hf d st stm hv)

theorem visit_temp (cfg : List RepoCfg) :
    ∀ fuel node st st2, visit cfg fuel node st = .ok st2 → st2.temp = st.temp := by
  intro fuel
  induction fuel with
  | zero =>
    intro node st st2 h
    rw [visit] at h
    cases h
  | succ fuel ih =>
    intro node st st2 h
    rw [visit] at h
    split at h
    · cases h
    · split at h
      · cases h; rfl
      · next hnt hnv =>
        cases hfold : visitFold (visit cfg fuel) (depsOf cfg node)
            { st with temp := node :: st.temp } with
        | error e => rw [hfold] at h; cases h
        | ok stm =>
          rw [hfold] at h
          cases h
          have htm : stm.temp = node :: st.temp :=
            visitFold_temp _ ih _ _ _ hfold
          show stm.temp.erase node = st.temp
          rw [htm, List.erase_cons_head]

theorem visitFold_no_fuel (cfg : List RepoCfg) (fuel : Nat)
    (hvt : ∀ node st st2, visit cfg fuel node st = .ok st2 → st2.temp = st.temp)
    (hvf : ∀ node st, node ∈ allNames cfg → st.temp ⊆ allNames cfg → st.temp.Nodup →
      (allNames cfg).length - st.temp.length < fuel → visit cfg fuel node st ≠ .error .fuel) :
    ∀ nodes st, (∀ d ∈ nodes, d ∈ allNames cfg) → st.temp ⊆ allNames cfg → st.temp.Nodup →
      (allNames cfg).length - st.temp.length < fuel →
      visitFold (visit cfg fuel) nodes st ≠ .error .fuel := by
  intro nodes
  induction nodes with
  | nil =>
    intro st _ _ _ _ h
    rw [visitFold] at h
    cases h
  | cons d ds ih =>
    intro st hds htemp hnd hb h
    rw [visitFold] at h
    cases hv : visit cfg fuel d st with
    | error e =>
      rw [hv] at h
      cases h
      exact hvf d st (hds d (List.mem_cons_self d ds)) htemp hnd hb hv
    | ok stm =>
      rw [hv] at h
      have htm := hvt d st stm hv
      exact ih stm (fun x hx => hds x (List.mem_cons_of_mem d hx))
        (htm ▸ htemp) (htm ▸ hnd) (htm ▸ hb) h

theorem visit_no_fuel (cfg : List RepoCfg) :
    ∀ fuel node st, node ∈ allNames cfg → st.temp ⊆ allNames cfg → st.temp.Nodup →
      (allNames cfg).length - st.temp.length < fuel →
      visit cfg fuel node st ≠ .error .fuel := by
  intro fuel
  induction fuel with
  | zero =>
    intro node st _ _ _ hb
    exact absurd hb (Nat.not_lt_zero _)
  | succ fuel ih =>
    intro node st hnode htemp hnd hb h
    rw [visit] at h
    split at h
    · cases h
    · split at h
      · cases h
      · next hnt hnv =>
        cases hfold : visitFold (visit cfg fuel) (depsOf cfg node)
            { st with temp := node :: st.temp } with
        | error e =>
          rw [hfold] at h
          cases h
          have hlen : st.temp.length + 1 ≤ (allNames cfg).length := by
            have : (node :: st.temp).Nodup := List.nodup_cons.mpr ⟨hnt, hnd⟩
            have hsub : (node :: st.temp) ⊆ allNames cfg := by
              intro x hx
              rcases List.mem_cons.mp hx with rfl | hx2
              · exact hnode
              · exact htemp hx2
            simpa using nodup_subset_length_le this hsub
          refine visitFold_no_fuel cfg fuel (visit_temp cfg fuel) ih
            (depsOf cfg node) { st with temp := node :: st.temp }
            (fun d hd => depsOf_subset_allNames cfg node d hd) ?_ ?_ ?_ hfold
          · intro x hx
            rcases List.mem_cons.mp hx with rfl | hx2
            · exact hnode
            · exact htemp hx2
          · exact List.nodup_cons.mpr ⟨hnt, hnd⟩
          · show (allNames cfg).length - (node :: st.temp).length < fuel
            simp only [List.length_cons]
            omega
        | ok stm =>
          rw [hfold] at h
          cases h

/-- Postcondition of a successful `visit node st`: invariant preserved, the
node emitted, and the newly emitted nodes characterised. -/
def VisitPost (cfg : List RepoCfg) (node : Str) (st st2 : DfsSt) : Prop :=
  DfsInv cfg st2
  ∧ node ∈ st2.result
  ∧ ∃ new, st2.result = st.result ++ new
      ∧ (∀ m ∈ new, m ∉ st.temp)
      ∧ (∀ m ∈ new, m = node ∨ ∃ p, m ∈ depsOf cfg p)

/-- Postcondition of a successful traversal of a whole node list. -/
def FoldPost (cfg : List RepoCfg) (nodes : List Str) (st st2 : DfsSt) : Prop :=
  DfsInv cfg st2
  ∧ (∀ d ∈ nodes, d ∈ st2.result)
  ∧ ∃ new, st2.result = st.result ++ new
      ∧ (∀ m ∈ new, m ∉ st.temp)
      ∧ (∀ m ∈ new, m ∈ nodes ∨ ∃ p, m ∈ depsOf cfg p)

theorem visitFold_spec (cfg : List RepoCfg) (fuel : Nat)
    (hvt : ∀ node st st2, visit cfg fuel node st = .ok st2 → st2.temp = st.temp)
    (hvs : ∀ node st st2, visit cfg fuel node st = .ok st2 → DfsInv cfg st →
      VisitPost cfg node st st2) :
    ∀ nodes st st2, visitFold (visit cfg fuel) nodes st = .ok st2 → DfsInv cfg st →
      FoldPost cfg nodes st st2 := by
  intro nodes
  induction nodes with
  | nil =>
    intro st st2 h hInv
    rw [visitFold] at h
    cases h
    exact ⟨hInv, fun x hx => (List.not_mem_nil x hx).elim, [], (List.append_nil _).symm,
      fun m hm => (List.not_mem_nil m hm).elim, fun m hm => (List.not_mem_nil m hm).elim⟩
  | cons d ds ih =>
    intro st st2 h hInv
    rw [visitFold] at h
    cases hv : visit cfg fuel d st with
    | error e => rw [hv] at h; cases h
    | ok stm =>
      rw [hv] at h
      obtain ⟨hInvM, hdM, new1, hres1, htmp1, hshape1⟩ := hvs d st stm hv hInv
      obtain ⟨hInv2, hdsM, new2, hres2, htmp2, hshape2⟩ := ih stm st2 h hInvM
      have htm : stm.temp = st.temp := hvt d st stm hv
      refine ⟨hInv2, ?_, new1 ++ new2, ?_, ?_, ?_⟩
      · intro x hx
        rcases List.mem_cons.mp hx with rfl | hx2
        · rw [hres2]; exact List.mem_append.mpr (Or.inl hdM)
        · exact hdsM x hx2
      · rw [hres2, hres1, List.append_assoc]
      · intro m hm
        rcases List.mem_append.mp hm with h1 | h2
        · exact htmp1 m h1
        · exact htm ▸ htmp2 m h2
      · intro m hm
        rcases List.mem_append.mp hm with h1 | h2
        · rcases hshape1 m h1 with rfl | hp
          · exact Or.inl (List.mem_cons_self _ _)
          · exact Or.inr hp
        · rcases hshape2 m h2 with hin | hp
          · exact Or.inl (List.mem_cons_of_mem _ hin)
          · exact Or.inr hp

theorem visit_spec (cfg : List RepoCfg) :
    ∀ fuel node st st2, visit cfg fuel node st = .ok st2 → DfsInv cfg st →
      VisitPost cfg node st st2 := by
  intro fuel
  induction fuel with
  | zero =>
    intro node st st2 h _
    rw [visit] at h
    cases h
  | succ fuel ih =>
    intro node st st2 h hInv
    rw [visit] at h
    split at h
    · cases h
    · split at h
      · next hnt hnv =>
        cases h
        exact ⟨hInv, (hInv.1 node).mpr hnv, [], (List.append_nil _).symm,
          fun m hm => (List.not_mem_nil m hm).elim, fun m hm => (List.not_mem_nil m hm).elim⟩
      · next hnt hnv =>
        cases hfold : visitFold (visit cfg fuel) (depsOf cfg node)
            { st with temp := node :: st.temp } with
        | error e => rw [hfold] at h; cases h
        | ok stm =>
          rw [hfold] at h
          cases h
          obtain ⟨hInvM, hdsM, new1, hres1, htmp1, hshape1⟩ :=
            visitFold_spec cfg fuel (visit_temp cfg fuel) ih
              (depsOf cfg node) { st with temp := node :: st.temp } stm hfold hInv
          have hknode : node ∉ stm.result := by
            rw [hres1]
            intro hmem
            rcases List.mem_append.mp hmem with hold | hnew
            · exact hnv ((hInv.1 node).mp hold)
            · exact htmp1 node hnew (List.mem_cons_self node st.temp)
          refine ⟨⟨?_, ?_, ?_⟩, ?_, new1 ++ [node], ?_, ?_, ?_⟩
          · intro n
            show n ∈ stm.result ++ [node] ↔ n ∈ node :: stm.visited
            simp only [List.mem_append, List.mem_cons, List.not_mem_nil, or_false]
            constructor
            · rintro (hr | rfl)
              · exact Or.inr ((hInvM.1 n).mp hr)
              · exact Or.inl rfl
            · rintro (rfl | hv2)
              · exact Or.inr rfl
              · exact Or.inl ((hInvM.1 n).mpr hv2)
          · show (stm.result ++ [node]).Nodup
            rw [List.nodup_append]
            refine ⟨hInvM.2.1, List.nodup_singleton _, ?_⟩
            intro a ha hb
            rw [List.mem_singleton] at hb
            subst hb
            exact hknode ha
          · intro n hn dd hdd
            show Before (stm.result ++ [node]) dd n
            rcases List.mem_append.mp hn with hr | hsing
            · exact (hInvM.2.2 n hr dd hdd).mono
            · rw [List.mem_singleton] at hsing
              rw [hsing] at hdd ⊢
              exact ⟨stm.result, [node], rfl, hdsM dd hdd, List.mem_singleton.mpr rfl⟩
          · exact List.mem_append.mpr (Or.inr (List.mem_singleton.mpr rfl))
          · show stm.result ++ [node] = st.result ++ (new1 ++ [node])
            rw [hres1, List.append_assoc]
          · intro m hm
            rcases List.mem_append.mp hm with h1 | h2
            · exact fun hmem => htmp1 m h1 (List.mem_cons_of_mem _ hmem)
            · rw [List.mem_singleton] at h2
              subst h2
              exact hnt
          · intro m hm
            rcases List.mem_append.mp hm with h1 | h2
            · rcases hshape1 m h1 with hin | hp
              · exact Or.inr ⟨node, hin⟩
              · exact Or.inr hp
            · rw [List.mem_singleton] at h2
              exact Or.inl h2

theorem chain_reaches (cfg : List RepoCfg) :
    ∀ (l : List Str) (x y : Str),
      List.Chain' (fun a b => a ∈ depsOf cfg b) (x :: l) → y ∈ l →
      Relation.TransGen (DependsOn cfg) y x := by
  intro l
  induction l with
  | nil =>
    intro x y _ hy
    exact absurd hy (List.not_mem_nil y)
  | cons z l2 ih =>
    intro x y hchain hy
    have hxz : x ∈ depsOf cfg z := (List.chain'_cons.mp hchain).1
    have hchain2 : List.Chain' (fun a b => a ∈ depsOf cfg b) (z :: l2) :=
      (List.chain'_cons.mp hchain).2
    rcases List.mem_cons.mp hy with rfl | hy2
    · exact Relation.TransGen.single hxz
    · exact (ih z y hchain2 hy2).tail hxz

theorem visitFold_cycle (cfg : List RepoCfg) (fuel : Nat)
    (hvt : ∀ node st st2, visit cfg fuel node st = .ok st2 → st2.temp = st.temp)
    (hvc : ∀ node st m, List.Chain' (fun a b => a ∈ depsOf cfg b) (node :: st.temp) →
      visit cfg fuel node st = .error (.cycle m) →
      Relation.TransGen (DependsOn cfg) m m) :
    ∀ nodes st m,
      (∀ d ∈ nodes, List.Chain' (fun a b => a ∈ depsOf cfg b) (d :: st.temp)) →
      visitFold (visit cfg fuel) nodes st = .error (.cycle m) →
      Relation.TransGen (DependsOn cfg) m m := by
  intro nodes
  induction nodes with
  | nil =>
    intro st m _ h
    rw [visitFold] at h
    cases h
  | cons d ds ih =>
    intro st m hch h
    rw [visitFold] at h
    cases hv : visit cfg fuel d st with
    | error e =>
      rw [hv] at h
      cases h
      exact hvc d st m (hch d (List.mem_cons_self d ds)) hv
    | ok stm =>
      rw [hv] at h
      have htm : stm.temp = st.temp := hvt d st stm hv
      exact ih stm m (fun x hx => htm ▸ hch x (List.mem_cons_of_mem d hx)) h

theorem visit_cycle (cfg : List RepoCfg) :
    ∀ fuel node st m,
      List.Chain' (fun a b => a ∈ depsOf cfg b) (node :: st.temp) →
      visit cfg fuel node st = .error (.cycle m) →
      Relation.TransGen (DependsOn cfg) m m := by
  intro fuel
  induction fuel with
  | zero =>
    intro node st m _ h
    rw [visit] at h
    cases h
  | succ fuel ih =>
    intro node st m hchain h
    rw [visit] at h
    split at h
    · next hmem =>
      cases h
      exact chain_reaches cfg st.temp node node hchain hmem
    · split at h
      · cases h
      · next hnt hnv =>
        cases hfold : visitFold (visit cfg fuel) (depsOf cfg node)
            { st with temp := node :: st.temp } with
        | error e =>
          rw [hfold] at h
          cases h
          refine visitFold_cycle cfg fuel (visit_temp cfg fuel) ih
            (depsOf cfg node) { st with temp := node :: st.temp } m ?_ hfold
          intro d hd
          exact List.chain'_cons.mpr ⟨hd, hchain⟩
        | ok stm =>
          rw [hfold] at h
          cases h

theorem getDependencyOrder_ok_spec (cfg : List RepoCfg) (L : List Str)
    (h : getDependencyOrder cfg = .ok L) :
    L.Nodup
    ∧ (∀ r ∈ cfg, r.name ∈ L)
    ∧ (∀ n ∈ L, ∀ d ∈ depsOf cfg n, Before L d n)
    ∧ (∀ m ∈ L, m ∈ cfg.map (fun r => r.name) ∨ ∃ p, m ∈ depsOf cfg p) := by
  rw [getDependencyOrder] at h
  unfold visitList at h
  cases hrun : visitFold (visit cfg (dfsFuel cfg)) (cfg.map (fun r => r.name)) ⟨[], [], []⟩ with
  | error e => rw [hrun] at h; cases h
  | ok st =>
    rw [hrun] at h
    cases h
    have hInit : DfsInv cfg ⟨[], [], []⟩ := by
      refine ⟨fun n => ?_, List.nodup_nil, fun n hn => absurd hn (List.not_mem_nil n)⟩
      constructor <;> intro hx <;> exact absurd hx (List.not_mem_nil n)
    obtain ⟨hInvF, hkeys, new, hres, _, hshape⟩ :=
      visitFold_spec cfg (dfsFuel cfg) (visit_temp cfg (dfsFuel cfg))
        (visit_spec cfg (dfsFuel cfg)) (cfg.map (fun r => r.name)) ⟨[], [], []⟩ st hrun hInit
    have hLnew : st.result = new := by simpa using hres
    refine ⟨hInvF.2.1, ?_, hInvF.2.2, ?_⟩
    · intro r hr
      exact hkeys r.name (List.mem_map.mpr ⟨r, hr, rfl⟩)
    · intro m hm
      exact hshape m (hLnew ▸ hm)

theorem getDependencyOrder_error_cycle (cfg : List RepoCfg) (e : DfsErr)
    (h : getDependencyOrder cfg = .error e) :
    ∃ m, e = .cycle m ∧ Relation.TransGen (DependsOn cfg) m m := by
  rw [getDependencyOrder] at h
  unfold visitList at h
  cases hrun : visitFold (visit cfg (dfsFuel cfg)) (cfg.map (fun r => r.name)) ⟨[], [], []⟩ with
  | ok st => rw [hrun] at h; cases h
  | error e2 =>
    rw [hrun] at h
    cases h
    cases e with
    | fuel =>
      exfalso
      refine visitFold_no_fuel cfg (dfsFuel cfg) (visit_temp cfg (dfsFuel cfg))
        (fun node st => visit_no_fuel cfg (dfsFuel cfg) node st)
        (cfg.map (fun r => r.name)) ⟨[], [], []⟩
        (fun d hd => keys_subset_allNames cfg d hd) ?_ ?_ ?_ hrun
      · intro x hx
        exact absurd hx (List.not_mem_nil x)
      · exact List.nodup_nil
      · show (allNames cfg).length - 0 < dfsFuel cfg
        unfold dfsFuel
        omega
    | cycle m =>
      refine ⟨m, rfl, ?_⟩
      refine visitFold_cycle cfg (dfsFuel cfg) (visit_temp cfg (dfsFuel cfg))
        (fun node st m2 hch hv => visit_cycle cfg (dfsFuel cfg) node st m2 hch hv)
        (cfg.map (fun r => r.name)) ⟨[], [], []⟩ m ?_ hrun
      intro d _
      exact List.chain'_singleton d

/-- Position of the first occurrence of `a` in `l` (the length of `l` when
absent). -/
def idxOf (l : List Str) (a : Str) : Nat :=
  match l with
  | [] => 0
  | c :: t => if c = a then 0 else idxOf t a + 1

theorem idxOf_append_left {a : Str} (l1 l2 : List Str) (h : a ∈ l1) :
    idxOf (l1 ++ l2) a = idxOf l1 a := by
  induction l1 with
  | nil => exact absurd h (List.not_mem_nil a)
  | cons c t ih =>
    rw [List.cons_append, idxOf, idxOf]
    by_cases hc : c = a
    · rw [if_pos hc, if_pos hc]
    · have ht : a ∈ t := by
        rcases List.mem_cons.mp h with rfl | ht
        · exact absurd rfl hc
        · exact ht
      rw [if_neg hc, if_neg hc, ih ht]

theorem idxOf_append_right {b : Str} (l1 l2 : List Str) (h : b ∉ l1) :
    idxOf (l1 ++ l2) b = l1.length + idxOf l2 b := by
  induction l1 with
  | nil => simp
  | cons c t ih =>
    have hc : ¬(c = b) := fun he => h (he ▸ List.mem_cons_self c t)
    have ht : b ∉ t := fun he => h (List.mem_cons_of_mem c he)
    rw [List.cons_append, idxOf, if_neg hc, ih ht, List.length_cons]
    omega

theorem idxOf_lt_length {a : Str} (l : List Str) (h : a ∈ l) :
    idxOf l a < l.length := by
  induction l with
  | nil => exact absurd h (List.not_mem_nil a)
  | cons c t ih =>
    rw [idxOf]
    by_cases hc : c = a
    · rw [if_pos hc]; simp
    · have ht : a ∈ t := by
        rcases List.mem_cons.mp h with rfl | ht
        · exact absurd rfl hc
        · exact ht
      rw [if_neg hc, List.length_cons]
      exact Nat.succ_lt_succ (ih ht)

theorem before_idxOf_lt {L : List Str} {a b : Str} (h : Before L a b)
    (nd : L.Nodup) : idxOf L a < idxOf L b := by
  obtain ⟨l1, l2, rfl, ha, hb⟩ := h
  have hdisj := List.disjoint_of_nodup_append nd
  have hbnot : b ∉ l1 := fun hb1 => hdisj hb1 hb
  rw [idxOf_append_left l1 l2 ha, idxOf_append_right l1 l2 hbnot]
  have hlt : idxOf l1 a < l1.length := idxOf_lt_length l1 ha
  omega

theorem transGen_exists_step {r : Str → Str → Prop} {a b : Str}
    (h : Relation.TransGen r a b) : ∃ c, r a c := by
  induction h with
  | single h1 => exact ⟨_, h1⟩
  | tail _ _ ih => exact ih

theorem transGen_index_lt (cfg : List RepoCfg) (L : List Str) (nd : L.Nodup)
    (hcl : ∀ n ∈ L, ∀ d ∈ depsOf cfg n, Before L d n) :
    ∀ x y, Relation.TransGen (DependsOn cfg) x y → x ∈ L →
      y ∈ L ∧ idxOf L y < idxOf L x := by
  intro x y h
  induction h with
  | single hstep =>
    intro hx
    have hB := hcl x hx _ hstep
    exact ⟨hB.mem_left, before_idxOf_lt hB nd⟩
  | tail hxb hbc ih =>
    intro hx
    obtain ⟨hbL, hlt⟩ := ih hx
    have hB := hcl _ hbL _ hbc
    exact ⟨hB.mem_left, lt_trans (before_idxOf_lt hB nd) hlt⟩

/-- A successful topological sort certifies acyclicity (used to discharge
acyclicity hypotheses on concrete configurations). -/
theorem acyclic_of_getDependencyOrder_ok (cfg : List RepoCfg) (L : List Str)
    (h : getDependencyOrder cfg = .ok L) :
    ∀ n, ¬ Relation.TransGen (DependsOn cfg) n n := by
  intro n hn
  obtain ⟨nd, hkeys, hcl, _⟩ := getDependencyOrder_ok_spec cfg L h
  obtain ⟨b, hb⟩ := transGen_exists_step hn
  have hne : depsOf cfg n ≠ [] := by
    intro he
    rw [DependsOn, he] at hb
    exact List.not_mem_nil b hb
  have hk := mem_keys_of_depsOf_ne_nil cfg n hne
  have hnL : n ∈ L := by
    rcases List.mem_map.mp hk with ⟨r, hr, hrn⟩
    exact hrn ▸ hkeys r hr
  obtain ⟨_, hlt⟩ := transGen_index_lt cfg L nd hcl n n hn hnL
  omega

/-- A cyclic configuration makes the topological sort raise the cycle error,
naming a node that really lies on a cycle. -/
theorem getDependencyOrder_cycle_error (cfg : List RepoCfg) (m : Str)
    (hm : Relation.TransGen (DependsOn cfg) m m) :
    ∃ n, getDependencyOrder cfg = .error (.cycle n)
      ∧ Relation.TransGen (DependsOn cfg) n n := by
  cases h : getDependencyOrder cfg with
  | ok L => exact absurd hm (acyclic_of_getDependencyOrder_ok cfg L h m)
  | error e =>
    obtain ⟨n, rfl, hc⟩ := getDependencyOrder_error_cycle cfg e h
    exact ⟨n, rfl, hc⟩

theorem find?_name_eq (cfg : List RepoCfg) (r : RepoCfg) :
    (cfg.map (fun x => x.name)).Nodup → r ∈ cfg →
    cfg.find? (fun x => x.name == r.name) = some r := by
  induction cfg with
  | nil => intro _ h; cases h
  | cons c t ih =>
    intro hnd hr
    rw [List.map_cons, List.nodup_cons] at hnd
    rcases List.mem_cons.mp hr with rfl | hrt
    · exact List.find?_cons_of_pos _ (by simp)
    · have hne : c.name ≠ r.name := by
        intro he
        exact hnd.1 (he ▸ List.mem_map.mpr ⟨r, hrt, rfl⟩)
      rw [List.find?_cons_of_neg _ (by simpa using hne)]
      exact ih hnd.2 hrt

theorem depsOf_eq_of_mem (cfg : List RepoCfg)
    (hnd : (cfg.map (fun r => r.name)).Nodup) (r : RepoCfg) (hr : r ∈ cfg) :
    depsOf cfg r.name = r.dependencies := by
  unfold depsOf
  rw [find?_name_eq cfg r hnd hr]

/-- C2: for every acyclic configuration (repository names are unique per the
data model), `get_dependency_order` succeeds and places every declared
dependency of a repository strictly before that repository, and the returned
order is uniquely determined by the configuration. -/
theorem claim_C2_topological_order (cfg : List RepoCfg)
    (hnd : (cfg.map (fun r => r.name)).Nodup)
    (hacyc : ∀ n, ¬ Relation.TransGen (DependsOn cfg) n n) :
    ∃ L, getDependencyOrder cfg = .ok L
      ∧ (∀ r ∈ cfg, ∀ d ∈ r.dependencies,
          d ∈ L ∧ r.name ∈ L ∧ idxOf L d < idxOf L r.name)
      ∧ (∀ L2, getDependencyOrder cfg = .ok L2 → L2 = L) := by
  cases h : getDependencyOrder cfg with
  | error e =>
    obtain ⟨m, _, hc⟩ := getDependencyOrder_error_cycle cfg e h
    exact absurd hc (hacyc m)
  | ok L =>
    obtain ⟨nd, hkeys, hcl, _⟩ := getDependencyOrder_ok_spec cfg L h
    refine ⟨L, rfl, ?_, ?_⟩
    · intro r hr d hd
      have hdeps : d ∈ depsOf cfg r.name := by
        rw [depsOf_eq_of_mem cfg hnd r hr]
        exact hd
      have hB := hcl r.name (hkeys r hr) d hdeps
      exact ⟨hB.mem_left, hkeys r hr, before_idxOf_lt hB nd⟩
    · intro L2 h2
      cases h2
      rfl

/-- The two-repository configuration used as the C2 witness. -/
def cfgC2w : List RepoCfg :=
  [⟨"app".data, "app".data, ["lib".data], true⟩,
   ⟨"lib".data, "lib".data, [], true⟩]

/-- Witness for C2 on a concrete acyclic two-repository configuration. -/
theorem claim_C2_topological_order_witness :
    ∃ L, getDependencyOrder cfgC2w = .ok L
      ∧ (∀ r ∈ cfgC2w, ∀ d ∈ r.dependencies,
          d ∈ L ∧ r.name ∈ L ∧ idxOf L d < idxOf L r.name)
      ∧ (∀ L2, getDependencyOrder cfgC2w = .ok L2 → L2 = L) :=
  claim_C2_topological_order cfgC2w (by decide)
    (acyclic_of_getDependencyOrder_ok cfgC2w ["lib".data, "app".data] rfl)

/-- C10: a returned order lists each name exactly once; its members are
exactly the configured names together with every name that appears in some
dependency list (even when no repository of that name is configured), and
such a name is placed before each repository that declares it. -/
theorem claim_C10_order_contents (cfg : List RepoCfg)
    (hnd : (cfg.map (fun r => r.name)).Nodup)
    (L : List Str) (h : getDependencyOrder cfg = .ok L) :
    L.Nodup
    ∧ (∀ m, m ∈ L ↔ (m ∈ cfg.map (fun r => r.name) ∨ ∃ r ∈ cfg, m ∈ r.dependencies))
    ∧ (∀ r ∈ cfg, ∀ d ∈ r.dependencies, idxOf L d < idxOf L r.name) := by
  obtain ⟨nd, hkeys, hcl, hmemb⟩ := getDependencyOrder_ok_spec cfg L h
  refine ⟨nd, ?_, ?_⟩
  · intro m
    constructor
    · intro hm
      rcases hmemb m hm with hk | ⟨p, hp⟩
      · exact Or.inl hk
      · right
        unfold depsOf at hp
        rcases hf : cfg.find? (fun x => x.name == p) with _ | r
        · rw [hf] at hp; cases hp
        · rw [hf] at hp
          exact ⟨r, List.mem_of_find?_eq_some hf, hp⟩
    · intro hm
      rcases hm with hk | ⟨r, hr, hd⟩
      · rcases List.mem_map.mp hk with ⟨r, hr, rfl⟩
        exact hkeys r hr
      · have hdeps : m ∈ depsOf cfg r.name := by
          rw [depsOf_eq_of_mem cfg hnd r hr]
          exact hd
        exact (hcl r.name (hkeys r hr) m hdeps).mem_left
  · intro r hr d hd
    have hdeps : d ∈ depsOf cfg r.name := by
      rw [depsOf_eq_of_mem cfg hnd r hr]
      exact hd
    exact before_idxOf_lt (hcl r.name (hkeys r hr) d hdeps) nd

/-- The configuration used as the C10 witness: one repository declaring a
dependency that is not configured. -/
def cfgC10w : List RepoCfg :=
  [⟨"app".data, "app".data, ["util".data], true⟩]

/-- Witness for C10: the unconfigured name `util` is listed, once, before its
dependent. -/
theorem claim_C10_order_contents_witness :
    (["util".data, "app".data] : List Str).Nodup
    ∧ (∀ m, m ∈ (["util".data, "app".data] : List Str)
        ↔ (m ∈ cfgC10w.map (fun r => r.name) ∨ ∃ r ∈ cfgC10w, m ∈ r.dependencies))
    ∧ (∀ r ∈ cfgC10w, ∀ d ∈ r.dependencies,
        idxOf ["util".data, "app".data] d < idxOf ["util".data, "app".data] r.name) :=
  claim_C10_order_contents cfgC10w (by decide) ["util".data, "app".data] rfl

/-- One entry of the `dependents_updated` list of `bump_version`. -/
structure DepRecord where
  name : Str
  oldVersion : Str
  newVersion : Str
  bumpType : Str
deriving DecidableEq, Repr

/-- A `VersionHistoryEntry` as written by
`VersionManager._record_version_history`. -/
structure HistEntry where
  timestamp : Str
  repository : Str
  oldVersion : Str
  newVersion : Str
  bumpType : Str
  alpha : Bool
  dependentsUpdated : List DepRecord
deriving DecidableEq, Repr

/-- Python `l[-n:]` for `n ≥ 1`: the last `n` elements. -/
def pyLastN (n : Nat) {α : Type} (l : List α) : List α := l.drop (l.length - n)

/-- Model of `VersionManager._record_version_history`: append the new entry and keep
only the last 100 entries. -/
def recordVersionHistory (history : List HistEntry) (entry : HistEntry) :
    List HistEntry :=
  pyLastN 100 (history ++ [entry])

theorem getLast?_drop_of_lt {α : Type} (l : List α) (n : Nat) (h : n < l.length) :
    (l.drop n).getLast? = l.getLast? := by
  conv_rhs => rw [← List.take_append_drop n l]
  have hne : l.drop n ≠ [] := by
    intro he
    have := List.drop_eq_nil_iff.mp he
    omega
  rw [List.getLast?_append_of_ne_nil _ hne]

/-- C9: the ledger update is bounded and append-only: after every recording
operation the ledger has at most 100 entries, its newest entry is the one
just recorded, the retained entries form an unmodified suffix of the old
ledger plus the new entry (most recent, original order), and while the
ledger is below the bound the update is a pure append. -/
theorem claim_C9_history_ledger (history : List HistEntry) (entry : HistEntry) :
    (recordVersionHistory history entry).length ≤ 100
    ∧ (recordVersionHistory history entry).getLast? = some entry
    ∧ (recordVersionHistory history entry) <:+ (history ++ [entry])
    ∧ (history.length < 100 →
        recordVersionHistory history entry = history ++ [entry]) := by
  unfold recordVersionHistory pyLastN
  have hlen : (history ++ [entry]).length = history.length + 1 := by
    rw [List.length_append, List.length_singleton]
  refine ⟨?_, ?_, ?_, ?_⟩
  · rw [List.length_drop]
    omega
  · rw [getLast?_drop_of_lt _ _ (by omega), List.getLast?_concat]
  · exact List.drop_suffix _ _
  · intro hsmall
    have : (history ++ [entry]).length - 100 = 0 := by omega
    rw [this, List.drop_zero]

/-- The concrete entry used by the C9 witness. -/
def histEntryW : HistEntry :=
  ⟨"t".data, "app".data, "1.0.0".data, "1.0.1".data, "patch".data, false, []⟩

/-- Witness for C9 on the empty ledger. -/
theorem claim_C9_history_ledger_witness :
    (recordVersionHistory [] histEntryW).length ≤ 100
    ∧ (recordVersionHistory [] histEntryW).getLast? = some histEntryW
    ∧ (recordVersionHistory [] histEntryW) <:+ ([] ++ [histEntryW])
    ∧ recordVersionHistory [] histEntryW = [] ++ [histEntryW] := by
  have h := claim_C9_history_ledger [] histEntryW
  exact ⟨h.1, h.2.1, h.2.2.1, h.2.2.2 (by decide)⟩

/-- Model of `ReleaseStage` from `core/release.py`. -/
inductive ReleaseStage
  | dev
  | rc
  | prod
deriving DecidableEq, Repr

/-- Model of `ReleaseStatus` from `core/release.py`. -/
inductive ReleaseStatus
  | pending
  | inProgress
  | success
  | failed
  | rolledBack
deriving DecidableEq, Repr

/-- The per-repository state read and mutated by
`ReleaseCoordinator._process_single_repository` and `_tag_release`:
path existence, the manifest version, the git tags, and the log of git
commits made. -/
structure RelRepoState where
  pathExists : Bool
  version : Option Str
  tags : List Str
  commitLog : List Str
deriving DecidableEq, Repr

/-- Python truthiness of an optional string (absent and empty are falsy). -/
def truthy (s : Option Str) : Option Str :=
  match s with
  | some v => if v = [] then none else some v
  | none => none

/-- The stage-dependent version shape of
`ReleaseCoordinator._determine_version`. -/
def stageVersion (base : Str) (stage : ReleaseStage) (timestamp : Str) : Str :=
  match stage with
  | .dev => base ++ '+' :: 'd' :: 'e' :: 'v' :: '.' :: timestamp
  | .rc => base ++ 'r' :: 'c' :: '1' :: []
  | .prod => base

/-- Model of `ReleaseCoordinator._determine_version`; `none` models the raised
`ValueError` when no version can be determined. -/
def determineVersion (st : RelRepoState) (stage : ReleaseStage)
    (versionParam : Option Str) (timestamp : Str) : Option Str :=
  match truthy versionParam with
  | some v => some (stageVersion v stage timestamp)
  | none =>
    match truthy st.version with
    | some cur => some (stageVersion cur stage timestamp)
    | none => none

/-- Model of `ReleaseCoordinator._version_already_released`: the tag made of a v prefixed to the version
exists. -/
def versionAlreadyReleased (st : RelRepoState) (version : Str) : Bool :=
  ('v' :: version) ∈ st.tags

/-- Model of `ReleaseCoordinator._process_single_repository`.  Lock regeneration and
test outcomes are abstracted into the boolean inputs `lockOk` and
`testsPass`; any raised exception is caught by the function's own handler,
which returns `false` and keeps the mutations made so far. -/
def processSingleRepository (st : RelRepoState) (stage : ReleaseStage)
    (versionParam : Option Str) (dryRun skipTests : Bool) (timestamp : Str)
    (lockOk testsPass : Bool) : Bool × RelRepoState :=
  if st.pathExists = false then (false, st)
  else
    match determineVersion st stage versionParam timestamp with
    | none => (false, st)
    | some newVersion =>
      if stage = .prod ∧ dryRun = false ∧ versionAlreadyReleased st newVersion then
        (true, st)
      else
        let st1 := if dryRun then st else { st with version := some newVersion }
        if ¬dryRun ∧ lockOk = false then (false, st1)
        else if ¬skipTests ∧ ¬dryRun ∧ testsPass = false then (false, st1)
        else
          let st2 := if dryRun then st1 else
            { st1 with commitLog :=
                st1.commitLog ++ [("Release version ".data ++ newVersion)] }
          (true, st2)

/-- Model of `ReleaseCoordinator._tag_release`: create and push the v-prefixed tag unless
the tag already exists. -/
def tagRelease (st : RelRepoState) (version : Str) : RelRepoState :=
  if ('v' :: version) ∈ st.tags then st
  else { st with tags := st.tags ++ ['v' :: version] }

/-- C6: re-running a prod release for a repository whose target version is
already tagged is an idempotent no-op success: the repository processing
returns success with the state untouched (no version write, no commit), and
the later tagging pass leaves the tag set unchanged (no duplicate tag). -/
theorem claim_C6_prod_already_released (st : RelRepoState) (targetVersion : Str)
    (versionParam : Option Str) (skipTests lockOk testsPass : Bool) (timestamp : Str)
    (hexists : st.pathExists = true)
    (hdet : determineVersion st .prod versionParam timestamp = some targetVersion)
    (htag : ('v' :: targetVersion) ∈ st.tags) :
    processSingleRepository st .prod versionParam false skipTests timestamp
        lockOk testsPass = (true, st)
    ∧ tagRelease st targetVersion = st := by
  constructor
  · have hv : versionAlreadyReleased st targetVersion = true := by
      simpa [versionAlreadyReleased] using htag
    rw [processSingleRepository, hexists, hdet]
    simp [hv]
  · rw [tagRelease, if_pos htag]

/-- The concrete state used by the C6 witness: version 1.0.0 already
tagged. -/
def relStateC6 : RelRepoState :=
  ⟨true, some "1.0.0".data, [('v' :: "1.0.0".data)], []⟩

/-- Witness for C6. -/
theorem claim_C6_prod_already_released_witness :
    processSingleRepository relStateC6 .prod none false false "ts".data true true
        = (true, relStateC6)
    ∧ tagRelease relStateC6 "1.0.0".data = relStateC6 :=
  claim_C6_prod_already_released relStateC6 "1.0.0".data none false true true
    "ts".data rfl rfl (List.mem_singleton.mpr rfl)

/-- The per-repository version choice of `_process_repositories_sequential`:
an entry of `repository_versions`, else the global `version` option. -/
def lookupVersion (repoVersions : List (Str × Str)) (version : Option Str)
    (name : Str) : Option Str :=
  match repoVersions.find? (fun p => p.1 == name) with
  | some p => some p.2
  | none => version

/-- Model of `ReleaseCoordinator._process_repositories_sequential`.  The outcome of
`_process_single_repository` for a repository is abstracted into `proc`
(which already catches every per-repository exception and reports it as
`false`).  `results` is the `release_results` map (append list, names occur
once) and `processed` instruments which repositories were actually handed to
`_process_single_repository`. -/
def processRepositoriesSequential (releaseOrder : List Str)
    (reposToRelease : List RepoCfg) (version : Option Str)
    (repoVersions : List (Str × Str)) (force : Bool)
    (proc : Str → Option Str → Bool)
    (results : List (Str × ReleaseStatus)) (processed : List Str) :
    Bool × List (Str × ReleaseStatus) × List Str :=
  match releaseOrder with
  | [] => (true, results, processed)
  | name :: rest =>
    if (reposToRelease.find? (fun r => r.name == name)).isSome then
      let v := lookupVersion repoVersions version name
      if proc name v then
        processRepositoriesSequential rest reposToRelease version repoVersions
          force proc (results ++ [(name, .success)]) (processed ++ [name])
      else if force then
        processRepositoriesSequential rest reposToRelease version repoVersions
          force proc (results ++ [(name, .failed)]) (processed ++ [name])
      else
        (false, results, processed ++ [name])
    else
      processRepositoriesSequential rest reposToRelease version repoVersions
        force proc results processed

/-- Status lookup in the results map. -/
def statusOf (results : List (Str × ReleaseStatus)) (name : Str) :
    Option ReleaseStatus :=
  (results.find? (fun p => p.1 == name)).map (fun p => p.2)

/-- The one-repository run used to refute C8 as stated. -/
def repoC8 : RepoCfg := ⟨"r1".data, "r1".data, [], true⟩

/-- Counterexample to C8: without `force`, the first failing repository stops
the queue but its failure is NOT recorded in the status map — the map has no
entry for it at all. -/
theorem claim_C8_counterexample :
    (processRepositoriesSequential ["r1".data] [repoC8] none [] false
        (fun _ _ => false) [] []).1 = false
    ∧ statusOf (processRepositoriesSequential ["r1".data] [repoC8] none [] false
        (fun _ _ => false) [] []).2.1 "r1".data = none := by
  constructor <;> rfl

/-- C8 (amended): the sequential loop satisfies, for a repository at the head
of the remaining queue that is found in the release set: on failure without
`force` it stops at once — nothing later is processed and the failure is NOT
recorded in the status map; on failure with `force` it records the failure
and continues; on success it records the success and continues; a name not
in the release set is skipped.  Per-repository errors never escape: they are
reported as the boolean outcome of the repository processing step. -/
theorem claim_C8_sequential_control (name : Str) (rest : List Str)
    (repos : List RepoCfg) (version : Option Str) (rv : List (Str × Str))
    (proc : Str → Option Str → Bool)
    (results : List (Str × ReleaseStatus)) (processed : List Str)
    (hfound : (repos.find? (fun r => r.name == name)).isSome = true) :
    (proc name (lookupVersion rv version name) = false →
      processRepositoriesSequential (name :: rest) repos version rv false proc
          results processed
        = (false, results, processed ++ [name]))
    ∧ (proc name (lookupVersion rv version name) = false →
      processRepositoriesSequential (name :: rest) repos version rv true proc
          results processed
        = processRepositoriesSequential rest repos version rv true proc
            (results ++ [(name, .failed)]) (processed ++ [name]))
    ∧ (proc name (lookupVersion rv version name) = true →
      ∀ force, processRepositoriesSequential (name :: rest) repos version rv force proc
          results processed
        = processRepositoriesSequential rest repos version rv force proc
            (results ++ [(name, .success)]) (processed ++ [name])) := by
  refine ⟨?_, ?_, ?_⟩
  · intro hfail
    rw [processRepositoriesSequential, if_pos hfound]
    simp [hfail]
  · intro hfail
    rw [processRepositoriesSequential, if_pos hfound]
    simp [hfail]
  · intro hok force
    rw [processRepositoriesSequential, if_pos hfound]
    simp [hok]

/-- Witness for the amended C8 at a concrete failing repository. -/
theorem claim_C8_sequential_control_witness :
    ((fun (_ : Str) (_ : Option Str) => false) "r1".data
        (lookupVersion [] none "r1".data) = false →
      processRepositoriesSequential ["r1".data] [repoC8] none [] false
          (fun _ _ => false) [] []
        = (false, [], [] ++ ["r1".data]))
    ∧ ((fun (_ : Str) (_ : Option Str) => false) "r1".data
        (lookupVersion [] none "r1".data) = false →
      processRepositoriesSequential ["r1".data] [repoC8] none [] true
          (fun _ _ => false) [] []
        = processRepositoriesSequential [] [repoC8] none [] true
            (fun _ _ => false) ([] ++ [("r1".data, .failed)]) ([] ++ ["r1".data]))
    ∧ ((fun (_ : Str) (_ : Option Str) => false) "r1".data
        (lookupVersion [] none "r1".data) = true →
      ∀ force, processRepositoriesSequential ["r1".data] [repoC8] none [] force
          (fun _ _ => false) [] []
        = processRepositoriesSequential [] [repoC8] none [] force
            (fun _ _ => false) ([] ++ [("r1".data, .success)]) ([] ++ ["r1".data])) :=
  claim_C8_sequential_control "r1".data [] [repoC8] none []
    (fun _ _ => false) [] [] (by decide)

/-- Git-visible state of one repository for the backup/rollback subsystem:
the working-tree manifest bytes, the head revision, the committed manifest
content per revision, and the tags (each naming the commit it points at). -/
structure GitRepo where
  pathExists : Bool
  manifest : Option Str
  headRev : Option Str
  commits : List (Str × Str)
  tags : List (Str × Str)
deriving DecidableEq, Repr

/-- The per-repository record captured by `ReleaseCoordinator._create_backups`:
a copy of `pyproject.toml` (when present) and the current `git rev-parse
HEAD` (when obtainable). -/
structure RepoBackup where
  pyprojectToml : Option Str
  gitCommit : Option Str
deriving DecidableEq, Repr

/-- Model of `_create_backups` for one configured repository: skipped when the
checkout is absent. -/
def createBackup (repo : GitRepo) : Option RepoBackup :=
  if repo.pathExists then some ⟨repo.manifest, repo.headRev⟩ else none

/-- Model of `git reset --hard <commit>`: move the head and overwrite the tracked
working-tree manifest with the committed content; fails on an unknown
revision. -/
def resetHard (repo : GitRepo) (commit : Str) : Option GitRepo :=
  match repo.commits.find? (fun p => p.1 == commit) with
  | some p => some { repo with headRev := some commit, manifest := some p.2 }
  | none => none

/-- Model of `ReleaseCoordinator._cleanup_orphaned_tags`: delete every tag whose
commit is no longer an ancestor of the restored head (`anc` is the
`merge-base --is-ancestor` oracle). -/
def cleanupOrphanedTags (repo : GitRepo) (anc : Str → Str → Bool) : GitRepo :=
  match repo.headRev with
  | some h => { repo with tags := repo.tags.filter (fun t => anc t.2 h) }
  | none => repo

/-- The per-repository body of `ReleaseCoordinator._rollback_release`: copy
the saved manifest back, hard-reset to the saved revision, then clean
orphaned tags (lock regeneration does not touch the manifest).  A reset
failure is caught by the per-repository handler, leaving the state as it was
at that point. -/
def rollbackRepo (backup : RepoBackup) (repo : GitRepo)
    (anc : Str → Str → Bool) : GitRepo :=
  let r1 :=
    match backup.pyprojectToml with
    | some content => { repo with manifest := some content }
    | none => repo
  match backup.gitCommit with
  | some c =>
    match resetHard r1 c with
    | some r2 => cleanupOrphanedTags r2 anc
    | none => r1
  | none => cleanupOrphanedTags r1 anc

/-- The dirty-tree repository refuting C7: the working manifest differs from
the committed one. -/
def repoC7 : GitRepo :=
  ⟨true, some "DIRTY".data, some "c1".data, [("c1".data, "CLEAN".data)], []⟩

/-- Counterexample to C7: an immediate backup/restore round trip does NOT
return the manifest bytes when the working tree was dirty at backup time —
the hard reset overwrites the restored copy with the committed content. -/
theorem claim_C7_counterexample :
    createBackup repoC7 = some ⟨some "DIRTY".data, some "c1".data⟩
    ∧ (rollbackRepo ⟨some "DIRTY".data, some "c1".data⟩ repoC7
        (fun _ _ => true)).manifest ≠ some "DIRTY".data := by
  constructor
  · rfl
  · decide

/-- C7 (amended): restoring a backed-up repository always returns the head
revision to its backup-time id, and sets the manifest to the content
committed at that revision (the hard reset runs after the manifest copy and
overwrites it); the manifest therefore round-trips byte-for-byte exactly
when the backup-time manifest equalled the committed content — in
particular whenever the working tree was clean at backup time.  This holds
for every intermediate state `r1` that still records the backed-up commit. -/
theorem claim_C7_backup_restore (r0 r1 : GitRepo) (anc : Str → Str → Bool)
    (m0 c0 mc : Str)
    (hpath : r0.pathExists = true)
    (hman : r0.manifest = some m0)
    (hhead : r0.headRev = some c0)
    (hfind : r1.commits.find? (fun p => p.1 == c0) = some (c0, mc)) :
    createBackup r0 = some ⟨some m0, some c0⟩
    ∧ (rollbackRepo ⟨some m0, some c0⟩ r1 anc).headRev = some c0
    ∧ (rollbackRepo ⟨some m0, some c0⟩ r1 anc).manifest = some mc
    ∧ (mc = m0 → (rollbackRepo ⟨some m0, some c0⟩ r1 anc).manifest = some m0) := by
  have hroll : rollbackRepo ⟨some m0, some c0⟩ r1 anc
      = cleanupOrphanedTags
          { r1 with manifest := some mc, headRev := some c0 } anc := by
    rw [rollbackRepo]
    simp only []
    rw [resetHard]
    simp only [hfind]
  have hclean : ∀ g : GitRepo, (cleanupOrphanedTags g anc).manifest = g.manifest
      ∧ (cleanupOrphanedTags g anc).headRev = g.headRev := by
    intro g
    obtain ⟨p, m, hr, cs, ts⟩ := g
    rw [cleanupOrphanedTags]
    cases hr <;> simp
  refine ⟨?_, ?_, ?_, ?_⟩
  · rw [createBackup, if_pos hpath, hman, hhead]
  · rw [hroll]
    rw [(hclean _).2]
  · rw [hroll]
    rw [(hclean _).1]
  · intro he
    rw [hroll, (hclean _).1, he]

/-- The clean repository used by the C7 witness. -/
def repoC7clean : GitRepo :=
  ⟨true, some "M".data, some "c1".data, [("c1".data, "M".data)], []⟩

/-- Witness for the amended C7 on a clean repository: the round trip restores
manifest and revision byte-for-byte. -/
theorem claim_C7_backup_restore_witness :
    createBackup repoC7clean = some ⟨some "M".data, some "c1".data⟩
    ∧ (rollbackRepo ⟨some "M".data, some "c1".data⟩ repoC7clean
        (fun _ _ => true)).headRev = some "c1".data
    ∧ (rollbackRepo ⟨some "M".data, some "c1".data⟩ repoC7clean
        (fun _ _ => true)).manifest = some "M".data
    ∧ ("M".data = "M".data →
        (rollbackRepo ⟨some "M".data, some "c1".data⟩ repoC7clean
          (fun _ _ => true)).manifest = some "M".data) :=
  claim_C7_backup_restore repoC7clean repoC7clean (fun _ _ => true)
    "M".data "c1".data "M".data rfl rfl rfl (by decide)

/-- Filesystem writes performed by `_create_backups` before the dependency
order is computed. -/
inductive FileOp
  | mkdirBackupRoot
  | mkdirRepoBackup (repo : Str)
  | copyManifest (repo : Str)
deriving DecidableEq, Repr

/-- The write trace of `ReleaseCoordinator._create_backups`: create the
timestamped backup directory, then one directory (and one manifest copy,
when the manifest exists) per existing repository. -/
def createBackupsOps (cfg : List RepoCfg) (manifestExists : Str → Bool) :
    List FileOp :=
  FileOp.mkdirBackupRoot ::
    cfg.flatMap (fun r =>
      if r.pathExists then
        FileOp.mkdirRepoBackup r.name ::
          (if manifestExists r.name then [FileOp.copyManifest r.name] else [])
      else [])

/-- Resolve the requested repository names against the configuration,
failing on the first unknown name (`create_release` then returns `False`). -/
def resolveAll (cfg : List RepoCfg) (names : List Str) :
    Option (List RepoCfg) :=
  match names with
  | [] => some []
  | n :: rest =>
    match cfg.find? (fun r => r.name == n), resolveAll cfg rest with
    | some r, some l => some (r :: l)
    | _, _ => none

/-- The prefix of `ReleaseCoordinator.create_release` up to the computation
of the release order: resolve the target set, validate the per-repository
version keys, create backups (unless dry-run), then call
`get_dependency_order`.  The first component is the trace of file writes so
far; `.ok none` models an early `return False` (no order computed), and an
uncaught `ValueError` from the sort propagates as `.error`. -/
def createReleaseUpToOrder (cfg : List RepoCfg) (repositories : Option (List Str))
    (repositoryVersions : List (Str × Str)) (dryRun : Bool)
    (manifestExists : Str → Bool) :
    List FileOp × Except DfsErr (Option (List Str)) :=
  match (match repositories with
         | some names => resolveAll cfg names
         | none => some cfg) with
  | none => ([], .ok none)
  | some reposToRelease =>
    if repositoryVersions.any
        (fun p => ¬ reposToRelease.any (fun r => r.name == p.1)) then
      ([], .ok none)
    else
      let ops := if dryRun then [] else createBackupsOps cfg manifestExists
      match getDependencyOrder cfg with
      | .error e => (ops, .error e)
      | .ok order =>
        (ops, .ok (some (order.filter
          (fun n => reposToRelease.any (fun r => r.name == n)))))

/-- The cyclic two-repository configuration used against C3. -/
def cfgC3 : List RepoCfg :=
  [⟨"A".data, "A".data, ["B".data], true⟩,
   ⟨"B".data, "B".data, ["A".data], true⟩]

/-- Counterexample to C3: on a cyclic configuration, release creation does
fail with the cycle error, but only AFTER creating backup files — the
failure does not occur before the operation touches any file. -/
theorem claim_C3_counterexample :
    (createReleaseUpToOrder cfgC3 none [] false (fun _ => true)).2
        = .error (.cycle "A".data)
    ∧ (createReleaseUpToOrder cfgC3 none [] false (fun _ => true)).1 ≠ [] := by
  constructor
  · rfl
  · intro h
    cases h

/-- C3 (amended): on every cyclic configuration the topological sort fails
with a CycleError naming a node that lies on a cycle, and — being pure —
touches no file; release creation propagates that CycleError before touching
any repository file, but it has already emitted exactly its backup writes
(and nothing at all under dry-run). -/
theorem claim_C3_cycle_failure (cfg : List RepoCfg) (dryRun : Bool)
    (mex : Str → Bool) (m : Str)
    (hm : Relation.TransGen (DependsOn cfg) m m) :
    (∃ n, getDependencyOrder cfg = .error (.cycle n)
      ∧ Relation.TransGen (DependsOn cfg) n n)
    ∧ (∃ n, (createReleaseUpToOrder cfg none [] dryRun mex).2 = .error (.cycle n))
    ∧ (dryRun = true → (createReleaseUpToOrder cfg none [] dryRun mex).1 = [])
    ∧ (dryRun = false →
        (createReleaseUpToOrder cfg none [] dryRun mex).1 = createBackupsOps cfg mex) := by
  obtain ⟨n, herr, hcyc⟩ := getDependencyOrder_cycle_error cfg m hm
  have hpre : createReleaseUpToOrder cfg none [] dryRun mex
      = ((if dryRun then [] else createBackupsOps cfg mex), .error (.cycle n)) := by
    rw [createReleaseUpToOrder]
    simp only [List.any_nil, Bool.false_eq_true, if_false, herr]
  refine ⟨⟨n, herr, hcyc⟩, ⟨n, by rw [hpre]⟩, ?_, ?_⟩
  · intro hd
    rw [hpre, hd]
    rfl
  · intro hd
    rw [hpre, hd]
    rfl

/-- Witness for the amended C3 on the concrete cyclic configuration. -/
theorem claim_C3_cycle_failure_witness :
    (∃ n, getDependencyOrder cfgC3 = .error (.cycle n)
      ∧ Relation.TransGen (DependsOn cfgC3) n n)
    ∧ (∃ n, (createReleaseUpToOrder cfgC3 none [] false (fun _ => true)).2
        = .error (.cycle n))
    ∧ (false = true → (createReleaseUpToOrder cfgC3 none [] false (fun _ => true)).1 = [])
    ∧ (false = false →
        (createReleaseUpToOrder cfgC3 none [] false (fun _ => true)).1
          = createBackupsOps cfgC3 (fun _ => true)) :=
  claim_C3_cycle_failure cfgC3 false (fun _ => true) "A".data
    (Relation.TransGen.tail
      (Relation.TransGen.single
        (show "B".data ∈ depsOf cfgC3 "A".data by decide))
      (show "A".data ∈ depsOf cfgC3 "B".data by decide))

/-- A Poetry dependency specification as `_update_dependency_version`
distinguishes them: a bare version string, or a dict with a `version` key, a
`path` key, or neither. -/
inductive DepSpec
  | strSpec (s : Str)
  | dictSpec (version : Option Str) (hasPath : Bool)
deriving DecidableEq, Repr

/-- The `pyproject.toml` contents the version manager reads and writes. -/
structure PyProject where
  version : Option Str
  dependencies : List (Str × DepSpec)
deriving DecidableEq, Repr

/-- The mutable world of `VersionManager`: one manifest per repository name,
plus the version-history ledger. -/
structure VmWorld where
  pyprojects : List (Str × PyProject)
  history : List HistEntry
deriving DecidableEq, Repr

def getPyproject (w : VmWorld) (name : Str) : Option PyProject :=
  (w.pyprojects.find? (fun p => p.1 == name)).map (fun p => p.2)

def setPyproject (w : VmWorld) (name : Str) (pp : PyProject) : VmWorld :=
  { w with pyprojects := (w.pyprojects.map
      (fun p => if p.1 == name then (p.1, pp) else p)) }

/-- Model of `VersionManager._get_current_version`. -/
def getCurrentVersion (w : VmWorld) (name : Str) : Option Str :=
  match getPyproject w name with
  | some pp => pp.version
  | none => none

/-- Model of `VersionManager._update_repository_version` (`poetry version v`); fails
when there is no manifest. -/
def updateRepositoryVersion (w : VmWorld) (name : Str) (v : Str) :
    Option VmWorld :=
  match getPyproject w name with
  | some pp => some (setPyproject w name { pp with version := some v })
  | none => none

def replaceChar (c1 c2 : Char) (s : Str) : Str :=
  s.map (fun c => if c = c1 then c2 else c)

/-- The hyphen/underscore name variations tried by
`_update_dependency_version`. -/
def possibleNames (packageName : Str) : List Str :=
  [packageName, replaceChar '-' '_' packageName, replaceChar '_' '-' packageName]

def findDependency (deps : List (Str × DepSpec)) (packageName : Str) :
    Option (Str × DepSpec) :=
  (possibleNames packageName).findSome? (fun n => deps.find? (fun d => d.1 == n))

def setDependency (deps : List (Str × DepSpec)) (key : Str) (spec : DepSpec) :
    List (Str × DepSpec) :=
  deps.map (fun p => if p.1 == key then (p.1, spec) else p)

/-- Model of `VersionManager._update_dependency_version`: rewrite the requirement on
`packageName` in the dependent repository to `^version`; local path
dependencies are left alone but still reported as success. -/
def updateDependencyVersion (w : VmWorld) (dependentName packageName version : Str) :
    Bool × VmWorld :=
  match getPyproject w dependentName with
  | none => (false, w)
  | some pp =>
    match findDependency pp.dependencies packageName with
    | none => (false, w)
    | some (depName, spec) =>
      match spec with
      | .strSpec _ =>
        (true, setPyproject w dependentName
          { pp with dependencies := (setDependency pp.dependencies depName
              (.strSpec ('^' :: version))) })
      | .dictSpec (some _) hasPath =>
        (true, setPyproject w dependentName
          { pp with dependencies := (setDependency pp.dependencies depName
              (.dictSpec (some ('^' :: version)) hasPath)) })
      | .dictSpec none true => (true, w)
      | .dictSpec none false =>
        (true, setPyproject w dependentName
          { pp with dependencies := (setDependency pp.dependencies depName
              (.dictSpec (some ('^' :: version)) false)) })

/-- Model of `VersionManager._get_dependent_repositories`: the configured repositories
whose declared dependency list contains the given name (direct dependents
only). -/
def getDependentRepositories (cfg : List RepoCfg) (repository : Str) :
    List RepoCfg :=
  cfg.filter (fun r => r.dependencies.contains repository)

/-- One iteration of the dependents loop of `bump_version` (non-dry-run).
`.error w` models a `ValueError` from `_calculate_new_version` escaping to
the outer handler; a failed `poetry version` for the dependent is caught by
the inner handler and merely skips the record. -/
def bumpDependent (w : VmWorld) (dep : RepoCfg) (packageName newVersion : Str)
    (dependentsBump : Str) (alpha : Bool) :
    Except VmWorld (VmWorld × Option DepRecord) :=
  match updateDependencyVersion w dep.name packageName newVersion with
  | (false, w1) => .ok (w1, none)
  | (true, w1) =>
    match getCurrentVersion w1 dep.name with
    | none => .ok (w1, none)
    | some cur =>
      match calculateNewVersion cur dependentsBump alpha with
      | none => .error w1
      | some newV =>
        match updateRepositoryVersion w1 dep.name newV with
        | some w2 => .ok (w2, some ⟨dep.name, cur, newV, dependentsBump⟩)
        | none => .ok (w1, none)

/-- The dependents loop of `bump_version` (non-dry-run). -/
def bumpDependents (w : VmWorld) (deps : List RepoCfg)
    (packageName newVersion dependentsBump : Str) (alpha : Bool) :
    Except VmWorld (VmWorld × List DepRecord) :=
  match deps with
  | [] => .ok (w, [])
  | dep :: rest =>
    match bumpDependent w dep packageName newVersion dependentsBump alpha with
    | .error w1 => .error w1
    | .ok (w1, rec?) =>
      match bumpDependents w1 rest packageName newVersion dependentsBump alpha with
      | .error w2 => .error w2
      | .ok (w2, recs) =>
        .ok (w2, (match rec? with | some r => [r] | none => []) ++ recs)

/-- The dependents loop in dry-run mode: only computes the records (a
version-parse failure still escapes). -/
def dryRunDependents (w : VmWorld) (deps : List RepoCfg)
    (dependentsBump : Str) (alpha : Bool) :
    Except VmWorld (VmWorld × List DepRecord) :=
  match deps with
  | [] => .ok (w, [])
  | dep :: rest =>
    match getCurrentVersion w dep.name with
    | none => dryRunDependents w rest dependentsBump alpha
    | some cur =>
      match calculateNewVersion cur dependentsBump alpha with
      | none => .error w
      | some newV =>
        match dryRunDependents w rest dependentsBump alpha with
        | .error w2 => .error w2
        | .ok (w2, recs) => .ok (w2, ⟨dep.name, cur, newV, dependentsBump⟩ :: recs)

/-- Model of `VersionManager._run_validation_tests`, with the pytest outcome
abstracted into `testsPass` (exit code 5 and a missing pytest count as a
pass, as in the source). -/
def runValidationTests (cfg : List RepoCfg) (repo : RepoCfg)
    (records : List DepRecord) (testsPass : Str → Bool) : Bool :=
  if testsPass repo.name then
    records.all (fun rec =>
      match cfg.find? (fun r => r.name == rec.name) with
      | some depRepo => if depRepo.pathExists then testsPass rec.name else true
      | none => true)
  else false

/-- Model of `VersionManager.bump_version`. -/
def bumpVersion (cfg : List RepoCfg) (w : VmWorld) (repository bumpType : Str)
    (alpha dryRun updateDependents : Bool) (dependentsBump : Str)
    (validate : Bool) (testsPass : Str → Bool) (now : Str) : Bool × VmWorld :=
  match cfg.find? (fun r => r.name == repository) with
  | none => (false, w)
  | some repo =>
    if repo.pathExists = false then (false, w)
    else
      match getCurrentVersion w repository with
      | none => (false, w)
      | some currentVersion =>
        match calculateNewVersion currentVersion bumpType alpha with
        | none => (false, w)
        | some newVersion =>
          match (if dryRun then some w
                 else updateRepositoryVersion w repository newVersion) with
          | none => (false, w)
          | some w1 =>
            match (if updateDependents then
                     (if dryRun then
                        dryRunDependents w1
                          (getDependentRepositories cfg repository)
                          dependentsBump alpha
                      else
                        bumpDependents w1
                          (getDependentRepositories cfg repository)
                          repo.packageName newVersion dependentsBump alpha)
                   else .ok (w1, [])) with
            | .error w2 => (false, w2)
            | .ok (w2, records) =>
              let w3 := if dryRun then w2 else
                { w2 with history := (recordVersionHistory w2.history
                    ⟨now, repository, currentVersion, newVersion, bumpType,
                      alpha, records⟩) }
              if validate ∧ ¬dryRun then
                if runValidationTests cfg repo records testsPass
                then (true, w3) else (false, w3)
              else (true, w3)

/-- The A→B→C configuration of the C1 scenario. -/
def cfgC1 : List RepoCfg :=
  [⟨"A".data, "A".data, ["B".data], true⟩,
   ⟨"B".data, "B".data, ["C".data], true⟩,
   ⟨"C".data, "C".data, [], true⟩]

/-- The initial world of the C1 scenario: all three repositories at 1.0.0,
each declaring a caret requirement on its dependency. -/
def wC1 : VmWorld :=
  ⟨[("A".data, ⟨some "1.0.0".data, [("B".data, .strSpec ('^' :: "1.0.0".data))]⟩),
    ("B".data, ⟨some "1.0.0".data, [("C".data, .strSpec ('^' :: "1.0.0".data))]⟩),
    ("C".data, ⟨some "1.0.0".data, []⟩)], []⟩

/-- The C1 scenario run: `bump_version("C", "major", alpha=False,
update_dependents=True, dependents_bump="patch")`. -/
def runC1 : Bool × VmWorld :=
  bumpVersion cfgC1 wC1 "C".data "major".data false false true "patch".data
    true (fun _ => true) "t".data

/-- Counterexample to C1: in the A→B→C scenario the run leaves B at `1.0.1`
(not the claimed `1.0.1-alpha.1`) and does not touch A at all (A stays at
`1.0.0`, not the claimed `1.0.1-alpha.1`): `bump_version` only processes
direct dependents, without recursing, and passes the caller's `alpha=False`
to them. -/
theorem claim_C1_counterexample :
    getCurrentVersion runC1.2 "B".data ≠ some "1.0.1-alpha.1".data
    ∧ getCurrentVersion runC1.2 "A".data ≠ some "1.0.1-alpha.1".data := by
  constructor <;> decide

/-- C1 (amended): the scenario run succeeds, sets C to `2.0.0`, rewrites the
direct dependent B's requirement on C to `^2.0.0` and bumps B with the same
(non-alpha) patch bump to `1.0.1`; the cascade is one level deep, so A keeps
version `1.0.0` and its requirement on B stays `^1.0.0`. -/
theorem claim_C1_direct_dependent_bump :
    runC1.1 = true
    ∧ getCurrentVersion runC1.2 "C".data = some "2.0.0".data
    ∧ getCurrentVersion runC1.2 "B".data = some "1.0.1".data
    ∧ (getPyproject runC1.2 "B".data).map (fun pp => pp.dependencies)
        = some [("C".data, .strSpec ('^' :: "2.0.0".data))]
    ∧ getCurrentVersion runC1.2 "A".data = some "1.0.0".data
    ∧ (getPyproject runC1.2 "A".data).map (fun pp => pp.dependencies)
        = some [("B".data, .strSpec ('^' :: "1.0.0".data))] := by
  refine ⟨?_, ?_, ?_, ?_, ?_, ?_⟩ <;> decide

end MPR
